import Mathlib

/-
  Shallow embedding of src/framework/module.cc (snort3 configuration /
  statistics substrate): TraceMask compilation, the Module verified
  begin/set/end config-walk protocol, and the PegStats aggregation engine.

  Machine integers: PegCount is uint64_t in the source and Trace is a
  uint64_t bitmask; the operations proved about here either only move
  values around, compare them, or bitwise-or them, none of which can
  overflow, except for the accumulation helpers add_peg_count /
  set_peg_count / set_max_peg_count which live in module.h (not under
  src/) and are modelled from the spec below.  Counters are therefore
  embedded as Nat.

  C strings (option names, fqn paths) are embedded as List Char;
  strcmp-equality is list equality.
-/

set_option maxHeartbeats 1000000

namespace Snort

/-- PegCount: 64-bit unsigned counter value (module.h). -/
abbrev PegCount := Nat

/-- Trace: the runtime trace bitmask type the compiled flags are OR-ed into. -/
abbrev Trace := Nat

/-- CountType: the PegInfo kind enum {SUM, NOW, MAX, END}. -/
inductive CountType where
  | SUM : CountType
  | NOW : CountType
  | MAX : CountType
  | END : CountType
deriving DecidableEq, Repr

/-- PegInfo: static counter descriptor {kind, name}; `name = none` embeds the
null-name sentinel entry that terminates a PegInfo array.  The help text
field never affects behaviour and is omitted. -/
structure PegInfo where
  type : CountType
  name : Option (List Char)
deriving DecidableEq, Repr

/-- Default PegInfo used only as the out-of-range fallback of `List.getD`. -/
def pegEnd : PegInfo := ⟨CountType.END, none⟩

/-- TraceValue: a named trace flag {aliasName, mask} (module.h). -/
structure TraceValue where
  aliasName : List Char
  mask : Trace
deriving DecidableEq, Repr

/-- TraceMask: an ordered set of TraceValue entries; the source stores a
pointer plus an element count m_size, embedded as the list of entries. -/
structure TraceMask where
  values : List TraceValue
deriving DecidableEq, Repr

/-- Value: external parsed configuration value.  The spec requires only two
operations of it: "does this value's option-name equal X" (`Value::is`) and
"read as unsigned 8-bit integer" (`Value::get_uint8`).  It is embedded as its
option name plus the raw numeric reading. -/
structure Value where
  name : List Char
  raw : Nat
deriving DecidableEq, Repr

/-- Value::is(s): option-name comparison (strcmp-equality). -/
def Value.is (v : Value) (s : List Char) : Bool :=
  v.name == s

/-- Value::get_uint8(): the value narrowed to an unsigned 8-bit integer. -/
def Value.get_uint8 (v : Value) : Nat :=
  v.raw % 256

/-- Loop body of TraceMask::set(const Value&, Trace*) (module.cc:66-84):
scan entries front to back; on the first entry whose alias matches the
value's option name, OR the entry's mask bits into the target iff the 8-bit
reading is nonzero, and return true; return false if no alias matches.
The returned pair is (return value, final target mask). -/
def traceScan (v : Value) : List TraceValue → Trace → Bool × Trace
  | [], mask => (false, mask)
  | tv :: rest, mask =>
    if v.is tv.aliasName then
      (true, if v.get_uint8 ≠ 0 then mask ||| tv.mask else mask)
    else traceScan v rest mask

/-- TraceMask::set(const Value&, Trace*) (module.cc:66-84). -/
def TraceMask.set (tm : TraceMask) (v : Value) (mask : Trace) : Bool × Trace :=
  traceScan v tm.values mask

/-- Modelled from the spec: `TraceMask::set(Trace*)` (apply_all) is declared
in module.h, which is not under src/.  Per the spec, it "unconditionally ORs
every entry's mask bits into the target". -/
def TraceMask.apply_all (tm : TraceMask) (mask : Trace) : Trace :=
  tm.values.foldl (fun acc tv => acc ||| tv.mask) mask

/-- The literal ".trace." searched for by Module::set (module.cc:125). -/
def dotTraceDot : List Char := ".trace.".toList

/-- strstr(haystack, needle) viewed as a containment test: true iff the
needle occurs as a contiguous substring of the haystack. -/
def hasSubstr (needle : List Char) : List Char → Bool
  | [] => needle.isEmpty
  | c :: rest => needle.isPrefixOf (c :: rest) || hasSubstr needle rest

/-- Modelled from the spec: `Module::add_peg_count` is inline in module.h
(not under src/); per the spec the accumulated total "is increased by the
current live value". -/
def add_peg_count (total v : PegCount) : PegCount :=
  total + v

/-- Modelled from the spec: `Module::set_max_peg_count` is inline in module.h
(not under src/); per the spec the accumulated total "is replaced with the
live value only if the live value is greater". -/
def set_max_peg_count (total v : PegCount) : PegCount :=
  if total < v then v else total

/-- Module: the aggregate root's runtime state.
  * `pegs` embeds the virtual `get_pegs()` result (nullable static array,
    including its null-name sentinel entry when present);
  * `get_counts` embeds the virtual `get_counts()` result: the nullable
    live (per-run) counter array;
  * `counts` is the member `std::vector<PegCount> counts` holding the
    recorded (aggregated) totals;
  * `num_counts` is the lazily resolved counter count (sentinel -1);
  * `table_level` is the config-walk nesting depth;
  * `list` is the is-list flag, `global_stats` the virtual predicate;
  * `trace_mask` is the nullable bound TraceMask, `trace` the value of the
    trace target the mask pointer writes through. -/
structure Module where
  pegs : Option (List PegInfo)
  get_counts : Option (List PegCount)
  counts : List PegCount
  num_counts : Int
  table_level : Int
  list : Bool
  global_stats : Bool
  trace_mask : Option TraceMask
  trace : Trace
deriving DecidableEq, Repr

/-- Module::set (module.cc:123-129): if strstr(fqn, ".trace.") is non-null,
return `trace_mask and trace_mask->set(v, trace)` (short-circuit: a null
trace_mask yields false without invoking the compiler); otherwise false.
The returned pair is (return value, resulting module state). -/
def Module.set (m : Module) (fqn : List Char) (v : Value) : Bool × Module :=
  if hasSubstr dotTraceDot fqn then
    match m.trace_mask with
    | none => (false, m)
    | some tm => ((tm.set v m.trace).1, { m with trace := (tm.set v m.trace).2 })
  else (false, m)

/-- Module::enable_trace (module.cc:241-245): if a TraceMask is bound, OR all
of its entries into the trace target; otherwise do nothing. -/
def Module.enable_trace (m : Module) : Module :=
  match m.trace_mask with
  | none => m
  | some tm => { m with trace := tm.apply_all m.trace }

/-- Module::verified_begin (module.cc:221-225): increment table_level, then
delegate to the module-specific begin() hook.  The hook (module.h, default
`return true`) never touches the depth per spec §4.1, so only the depth
effect is embedded. -/
def Module.verified_begin (m : Module) : Module :=
  { m with table_level := m.table_level + 1 }

/-- Module::verified_end (module.cc:235-239): decrement table_level, then
delegate to the module-specific end() hook (depth-preserving, as above). -/
def Module.verified_end (m : Module) : Module :=
  { m with table_level := m.table_level - 1 }

/-- Module::verified_set (module.cc:227-233): a list module below nesting
depth 2 is rejected outright; otherwise delegate to the (virtual) set hook,
passed here as an explicit parameter so the theorem covers every override. -/
def Module.verified_set (hook : Module → List Char → Value → Bool × Module)
    (m : Module) (fqn : List Char) (v : Value) : Bool × Module :=
  if m.list && decide (m.table_level < 2) then (false, m)
  else hook m fqn v

/-- Per-index body of the non-global branch of Module::sum_stats
(module.cc:153-171): dispatch on the PegInfo kind; the pair is
(new recorded total, new live value). -/
def stepPeg (accumulate_now_stats : Bool) (ty : CountType) (total live : PegCount) :
    PegCount × PegCount :=
  match ty with
  | CountType.END => (total, live)
  | CountType.SUM => (add_peg_count total live, 0)
  | CountType.NOW =>
      (if accumulate_now_stats then add_peg_count total live else total, live)
  | CountType.MAX => (set_max_peg_count total live, live)

/-- The non-global sum_stats loop over index-aligned descriptor/total/live
sequences; stops when totals or live values run out (the C++ loop bound
num_counts is applied by the caller via List.take). -/
def sumStep (accumulate_now_stats : Bool) :
    List PegInfo → List PegCount → List PegCount → List PegCount × List PegCount
  | q :: qs, t :: ts, l :: ls =>
    let h := stepPeg accumulate_now_stats q.type t l
    let r := sumStep accumulate_now_stats qs ts ls
    (h.1 :: r.1, h.2 :: r.2)
  | _, ts, ls => (ts, ls)

/-- Counter-count resolution loop of Module::reset_stats (module.cc:198-199):
`while (pegs[num_counts].name) ++num_counts` — the number of leading entries
with a non-null name. -/
def countPegs : List PegInfo → Nat
  | [] => 0
  | p :: rest =>
    match p.name with
    | none => 0
    | some _ => countPegs rest + 1

/-- std::vector::resize(n): truncate or pad with value-initialized (0)
elements to length n. -/
def resizeTo (n : Nat) (l : List PegCount) : List PegCount :=
  l.take n ++ List.replicate (n - l.length) 0

/-- Zero the first k slots (the `for (i < num_counts) counts[i] = 0` loop). -/
def zeroFirst : Nat → List PegCount → List PegCount
  | 0, l => l
  | _ + 1, [] => []
  | k + 1, _ :: rest => 0 :: zeroFirst k rest

/-- Module::reset_stats (module.cc:188-206): if num_counts is not yet
positive, set it to 0, return immediately when get_pegs() is null, else walk
the PegInfo sequence to its sentinel to resolve the count and resize the
counts vector; then (in the non-null cases) zero the first num_counts
slots of the counts vector. -/
def Module.reset_stats (m : Module) : Module :=
  if m.num_counts ≤ 0 then
    match m.pegs with
    | none => { m with num_counts := 0 }
    | some ps =>
      let n := countPegs ps
      { m with num_counts := (n : Int), counts := zeroFirst n (resizeTo n m.counts) }
  else
    { m with counts := zeroFirst m.num_counts.toNat m.counts }

/-- Module::sum_stats (module.cc:131-174): lazily reset when num_counts is
unresolved; return when get_counts() is null; assert get_pegs() non-null
(the `none` pegs case embeds the assertion-failed path as a no-op); global
modules copy live values into the recorded totals verbatim; otherwise run
the per-kind dispatch over the first num_counts indices. -/
def Module.sum_stats (m : Module) (accumulate_now_stats : Bool) : Module :=
  let m1 := if m.num_counts < 0 then m.reset_stats else m
  match m1.get_counts with
  | none => m1
  | some p =>
    match m1.pegs with
    | none => m1
    | some q =>
      let n := m1.num_counts.toNat
      if m1.global_stats then
        { m1 with counts := p.take n ++ m1.counts.drop n }
      else
        let r := sumStep accumulate_now_stats q (m1.counts.take n) (p.take n)
        { m1 with counts := r.1 ++ m1.counts.drop n,
                  get_counts := some (r.2 ++ p.drop n) }

/-- The `for (i = 0; infos[i].name; i++) if (!strcmp(name, infos[i].name))`
scan of Module::get_global_count (module.cc:212-216): index of the first
pre-sentinel entry whose name matches, none when the loop exits without a
match (the assertion path). -/
def findPeg (nm : List Char) : List PegInfo → Option Nat
  | [] => none
  | p :: rest =>
    match p.name with
    | none => none
    | some s => if nm == s then some 0 else (findPeg nm rest).map (· + 1)

/-- Names of the pre-sentinel PegInfo entries, in scan order. -/
def pegNames : List PegInfo → List (List Char)
  | [] => []
  | p :: rest =>
    match p.name with
    | none => []
    | some s => s :: pegNames rest

/-- Module::get_global_count (module.cc:208-219): linear scan of the PegInfo
names; `some` of the recorded counter at the first matching index, `none`
embedding the `assert(false); return 0` programmer-error path (a null
get_pegs() dereferences immediately in C++ and is likewise embedded as the
error path). -/
def Module.get_global_count (m : Module) (nm : List Char) : Option PegCount :=
  match m.pegs with
  | none => none
  | some infos => (findPeg nm infos).map (fun i => m.counts.getD i 0)

/-- Recorded (aggregated) total at index i. -/
def Module.countAt (m : Module) (i : Nat) : PegCount :=
  m.counts.getD i 0

/-- Live counter value at index i (0 when get_counts() is null). -/
def Module.liveAt (m : Module) (i : Nat) : PegCount :=
  (m.get_counts.getD []).getD i 0

/-- Number of counters the static descriptors of m resolve to. -/
def numPegs (m : Module) : Nat :=
  match m.pegs with
  | none => 0
  | some ps => countPegs ps

/-- The guard of reset_stats' lazy-sizing branch (module.cc:190): true
exactly when a reset_stats call walks the PegInfo sequence and resizes
(i.e. recomputes the counter count). -/
def takesSizingBranch (m : Module) : Bool :=
  decide (m.num_counts ≤ 0)

/-- Operations of the stats surface: reset_stats, sum_stats, and an external
write of the live counters (through the get_counts() pointer, hence a no-op
when that pointer is null). -/
inductive StatsOp where
  | rst : StatsOp
  | sum : Bool → StatsOp
  | writeLive : List PegCount → StatsOp
deriving DecidableEq, Repr

/-- Apply one stats operation. -/
def applyOp (m : Module) : StatsOp → Module
  | StatsOp.rst => m.reset_stats
  | StatsOp.sum acc => m.sum_stats acc
  | StatsOp.writeLive ls =>
    match m.get_counts with
    | none => m
    | some _ => { m with get_counts := some ls }

/-- Run a sequence of stats operations left to right. -/
def runStats (m : Module) : List StatsOp → Module
  | [] => m
  | op :: rest => runStats (applyOp m op) rest

/-- A stats operation allowed in a "sequence of sum_stats calls with
arbitrary interleaved live-counter writes": no reset, and writes keep the
live array at its allocated size n. -/
def sumSeqOK (n : Nat) : StatsOp → Bool
  | StatsOp.rst => false
  | StatsOp.sum _ => true
  | StatsOp.writeLive ls => ls.length == n

/-- Config-walk table boundary operations. -/
inductive WalkOp where
  | enter_table : WalkOp
  | exit_table : WalkOp
deriving DecidableEq, Repr

/-- Apply one table boundary operation (verified_begin / verified_end). -/
def applyWalk (m : Module) : WalkOp → Module
  | WalkOp.enter_table => m.verified_begin
  | WalkOp.exit_table => m.verified_end

/-- Run a sequence of table boundary operations left to right. -/
def runWalk (m : Module) : List WalkOp → Module
  | [] => m
  | op :: rest => runWalk (applyWalk m op) rest

/-- Net depth change of a walk sequence. -/
def walkDelta : List WalkOp → Int
  | [] => 0
  | WalkOp.enter_table :: rest => 1 + walkDelta rest
  | WalkOp.exit_table :: rest => walkDelta rest - 1

/-- Dyck-style balance check: with n tables currently open, the sequence
closes exactly those n and never closes a table that is not open. -/
def balancedFrom : List WalkOp → Nat → Bool
  | [], n => n == 0
  | WalkOp.enter_table :: rest, n => balancedFrom rest (n + 1)
  | WalkOp.exit_table :: _, 0 => false
  | WalkOp.exit_table :: rest, n + 1 => balancedFrom rest n

/-- A balanced begin/end sequence: well-nested with nothing open initially. -/
def balancedWalk (l : List WalkOp) : Bool :=
  balancedFrom l 0

/-- Well-formedness of a module's stats state relative to its descriptor
array qs: non-global, descriptors bound, counter count resolved, and both
the recorded-totals vector and the live array sized to that count. -/
def WFat (m : Module) (qs : List PegInfo) : Prop :=
  m.global_stats = false ∧ m.pegs = some qs ∧
  m.num_counts = (countPegs qs : Int) ∧
  m.counts.length = countPegs qs ∧
  m.get_counts.isSome = true ∧
  (m.get_counts.getD []).length = countPegs qs

instance (m : Module) (qs : List PegInfo) : Decidable (WFat m qs) := by
  unfold WFat
  infer_instance


/-- sumStep preserves the lengths of the totals and live lists. -/
theorem sumStep_length (acc : Bool) (qs : List PegInfo) (ts ls : List PegCount) :
    (sumStep acc qs ts ls).1.length = ts.length ∧
    (sumStep acc qs ts ls).2.length = ls.length := by
  induction qs generalizing ts ls with
  | nil => simp [sumStep]
  | cons q qs ih =>
    cases ts with
    | nil => simp [sumStep]
    | cons t ts =>
      cases ls with
      | nil => simp [sumStep]
      | cons l ls =>
        simp only [sumStep, List.length_cons]
        exact ⟨congrArg (· + 1) (ih ts ls).1, congrArg (· + 1) (ih ts ls).2⟩

/-- Per-index characterization of sumStep: each in-range index is mapped by
stepPeg on the corresponding descriptor, total and live value. -/
theorem sumStep_getD (acc : Bool) (qs : List PegInfo) (ts ls : List PegCount) (i : Nat)
    (hq : i < qs.length) (ht : i < ts.length) (hl : i < ls.length) :
    (sumStep acc qs ts ls).1.getD i 0
      = (stepPeg acc (qs.getD i pegEnd).type (ts.getD i 0) (ls.getD i 0)).1 ∧
    (sumStep acc qs ts ls).2.getD i 0
      = (stepPeg acc (qs.getD i pegEnd).type (ts.getD i 0) (ls.getD i 0)).2 := by
  induction qs generalizing ts ls i with
  | nil => simp at hq
  | cons q qs ih =>
    cases ts with
    | nil => simp at ht
    | cons t ts =>
      cases ls with
      | nil => simp at hl
      | cons l ls =>
        cases i with
        | zero => simp [sumStep]
        | succ i =>
          simp only [sumStep, List.getD_cons_succ]
          exact ih ts ls i (by simpa using hq) (by simpa using ht) (by simpa using hl)

/-- countPegs never counts past the end of the descriptor list. -/
theorem countPegs_le_length (ps : List PegInfo) : countPegs ps ≤ ps.length := by
  induction ps with
  | nil => simp [countPegs]
  | cons p rest ih =>
    cases h : p.name with
    | none => simp [countPegs, h]
    | some s => simp only [countPegs, h, List.length_cons]; omega

/-- Closed form of sum_stats on a well-formed non-global module: the totals
become the first component and the live values the second component of the
sumStep traversal. -/
theorem sum_stats_eq (m : Module) (qs : List PegInfo) (acc : Bool) (hw : WFat m qs) :
    m.sum_stats acc =
      { m with counts := (sumStep acc qs m.counts (m.get_counts.getD [])).1,
               get_counts := some (sumStep acc qs m.counts (m.get_counts.getD [])).2 } := by
  obtain ⟨hg, hq, hn, hc, hs, hl⟩ := hw
  obtain ⟨p, hp⟩ := Option.isSome_iff_exists.mp hs
  have hneg : ¬ m.num_counts < 0 := by rw [hn]; exact not_lt.mpr (Int.natCast_nonneg _)
  rw [hp] at hl ⊢
  simp only [Option.getD_some] at hl ⊢
  have hif : (if m.num_counts < 0 then m.reset_stats else m) = m := if_neg hneg
  unfold Module.sum_stats
  rw [hif]
  simp only [hp, hq, hg, hn, Int.toNat_natCast]
  rw [List.take_of_length_le (le_of_eq hc), List.take_of_length_le (le_of_eq hl),
      List.drop_eq_nil_of_le (le_of_eq hc), List.drop_eq_nil_of_le (le_of_eq hl)]
  simp


/-- sum_stats preserves well-formedness (and in particular leaves the
descriptors, the resolved count and the array sizes intact). -/
theorem WFat_sum_stats (m : Module) (qs : List PegInfo) (acc : Bool) (hw : WFat m qs) :
    WFat (m.sum_stats acc) qs := by
  have he := sum_stats_eq m qs acc hw
  obtain ⟨hg, hq, hn, hc, hs, hl⟩ := hw
  rw [he]
  refine ⟨hg, hq, hn, ?_, rfl, ?_⟩
  · simpa using ((sumStep_length acc qs m.counts (m.get_counts.getD [])).1).trans hc
  · simpa using ((sumStep_length acc qs m.counts (m.get_counts.getD [])).2).trans hl

/-- Per-index reading of sum_stats on a well-formed non-global module. -/
theorem sum_stats_at (m : Module) (qs : List PegInfo) (acc : Bool) (i : Nat)
    (hw : WFat m qs) (hi : i < countPegs qs) :
    (m.sum_stats acc).countAt i
      = (stepPeg acc (qs.getD i pegEnd).type (m.countAt i) (m.liveAt i)).1 ∧
    (m.sum_stats acc).liveAt i
      = (stepPeg acc (qs.getD i pegEnd).type (m.countAt i) (m.liveAt i)).2 := by
  have he := sum_stats_eq m qs acc hw
  obtain ⟨hg, hq, hn, hc, hs, hl⟩ := hw
  rw [he]
  unfold Module.countAt Module.liveAt
  simp only [Option.getD_some]
  exact sumStep_getD acc qs m.counts (m.get_counts.getD []) i
    (lt_of_lt_of_le hi (countPegs_le_length qs)) (by rw [hc]; exact hi) (by rw [hl]; exact hi)

/-- The spec-modelled high-water update is Nat.max. -/
theorem set_max_eq_max (t l : PegCount) : set_max_peg_count t l = Nat.max t l := by
  unfold set_max_peg_count
  split
  · exact (Nat.max_eq_right (Nat.le_of_lt (by assumption))).symm
  · exact (Nat.max_eq_left (Nat.le_of_not_lt (by assumption))).symm

/-- Writing the live counters of a well-formed module with a correctly sized
array keeps it well-formed. -/
theorem WFat_writeLive (m : Module) (qs : List PegInfo) (ls : List PegCount)
    (hw : WFat m qs) (hlen : ls.length = countPegs qs) :
    WFat { m with get_counts := some ls } qs := by
  obtain ⟨hg, hq, hn, hc, hs, hl⟩ := hw
  exact ⟨hg, hq, hn, hc, rfl, by simpa using hlen⟩

/-- On a well-formed module an external live-counter write takes the
non-null branch of applyOp. -/
theorem applyOp_writeLive (m : Module) (qs : List PegInfo) (ls : List PegCount)
    (hw : WFat m qs) :
    applyOp m (StatsOp.writeLive ls) = { m with get_counts := some ls } := by
  obtain ⟨p, hp⟩ := Option.isSome_iff_exists.mp hw.2.2.2.2.1
  unfold applyOp
  rw [hp]

/-- Monotonicity engine for C3: across any reset-free sequence of sum_stats
calls and well-sized live writes, a MAX-kind recorded total never
decreases. -/
theorem runStats_max_mono (qs : List PegInfo) (i : Nat) (hi : i < countPegs qs)
    (hty : (qs.getD i pegEnd).type = CountType.MAX) :
    ∀ (ops : List StatsOp) (m : Module), WFat m qs →
      (∀ op ∈ ops, sumSeqOK (countPegs qs) op = true) →
      m.countAt i ≤ (runStats m ops).countAt i := by
  intro ops
  induction ops with
  | nil => intro m _ _; exact le_refl _
  | cons op rest ih =>
    intro m hw hok
    have hokop := hok op (List.mem_cons_self op rest)
    have hokrest : ∀ op' ∈ rest, sumSeqOK (countPegs qs) op' = true :=
      fun op' h => hok op' (List.mem_cons_of_mem op h)
    cases op with
    | rst => simp [sumSeqOK] at hokop
    | sum acc =>
      have hw1 := WFat_sum_stats m qs acc hw
      have h1 := (sum_stats_at m qs acc i hw hi).1
      rw [hty] at h1
      simp only [stepPeg, set_max_eq_max] at h1
      have step : m.countAt i ≤ (m.sum_stats acc).countAt i := by
        rw [h1]; exact Nat.le_max_left _ _
      simp only [runStats, applyOp]
      exact le_trans step (ih (m.sum_stats acc) hw1 hokrest)
    | writeLive ls =>
      have hlen : ls.length = countPegs qs := by
        simpa [sumSeqOK] using hokop
      have hw1 := WFat_writeLive m qs ls hw hlen
      have hstep := applyOp_writeLive m qs ls hw
      simp only [runStats]
      rw [hstep]
      have hsame : ({ m with get_counts := some ls } : Module).countAt i = m.countAt i := rfl
      rw [← hsame]
      exact ih _ hw1 hokrest


/-- C1: For every non-global module and every counter index whose PegInfo
kind is SUM with live value v, sum_stats increases the recorded total at
that index by exactly v and sets the live value to 0; an immediately
following sum_stats call with no intervening writes adds 0 to the recorded
total. -/
theorem C1_sum_kind (m : Module) (qs : List PegInfo) (i : Nat) (acc acc2 : Bool)
    (hw : WFat m qs) (hi : i < countPegs qs)
    (hty : (qs.getD i pegEnd).type = CountType.SUM) :
    (m.sum_stats acc).countAt i = m.countAt i + m.liveAt i ∧
    (m.sum_stats acc).liveAt i = 0 ∧
    ((m.sum_stats acc).sum_stats acc2).countAt i = (m.sum_stats acc).countAt i := by
  have h1 := sum_stats_at m qs acc i hw hi
  have hw1 := WFat_sum_stats m qs acc hw
  have h2 := sum_stats_at (m.sum_stats acc) qs acc2 i hw1 hi
  rw [hty] at h1 h2
  simp only [stepPeg, add_peg_count] at h1 h2
  refine ⟨h1.1, h1.2, ?_⟩
  rw [h2.1, h1.2, Nat.add_zero]

/-- C2: For every non-global module and every counter index whose PegInfo
kind is NOW, sum_stats false leaves total and live value unchanged at that
index; sum_stats true adds the live value to the total and leaves the live
value unchanged (not reset). -/
theorem C2_now_kind (m : Module) (qs : List PegInfo) (i : Nat)
    (hw : WFat m qs) (hi : i < countPegs qs)
    (hty : (qs.getD i pegEnd).type = CountType.NOW) :
    ((m.sum_stats false).countAt i = m.countAt i ∧
     (m.sum_stats false).liveAt i = m.liveAt i) ∧
    ((m.sum_stats true).countAt i = m.countAt i + m.liveAt i ∧
     (m.sum_stats true).liveAt i = m.liveAt i) := by
  have hf := sum_stats_at m qs false i hw hi
  have ht := sum_stats_at m qs true i hw hi
  rw [hty] at hf ht
  simp only [stepPeg, add_peg_count, if_true, if_false, Bool.false_eq_true, ite_false,
    ite_true] at hf ht
  exact ⟨⟨hf.1, hf.2⟩, ⟨ht.1, ht.2⟩⟩

/-- C3: For every non-global module and every counter index whose PegInfo
kind is MAX, after any sum_stats call the recorded total equals
max(previous total, live value); across every reset-free sequence of
sum_stats calls (with arbitrary well-sized live-counter writes in between)
the recorded total never decreases. -/
theorem C3_max_kind (m : Module) (qs : List PegInfo) (i : Nat)
    (hw : WFat m qs) (hi : i < countPegs qs)
    (hty : (qs.getD i pegEnd).type = CountType.MAX) :
    (∀ acc, (m.sum_stats acc).countAt i = Nat.max (m.countAt i) (m.liveAt i)) ∧
    (∀ ops : List StatsOp, (∀ op ∈ ops, sumSeqOK (countPegs qs) op = true) →
      m.countAt i ≤ (runStats m ops).countAt i) := by
  constructor
  · intro acc
    have h1 := (sum_stats_at m qs acc i hw hi).1
    rw [hty] at h1
    simpa [stepPeg, set_max_eq_max] using h1
  · intro ops hok
    exact runStats_max_mono qs i hi hty ops m hw hok

/-- The character list "packets". -/
def pktName : List Char := "packets".toList

/-- Descriptor array [{SUM, "packets"}, {END, null}]. -/
def pegsSum1 : List PegInfo := [⟨CountType.SUM, some pktName⟩, pegEnd]

/-- Descriptor array [{NOW, "packets"}, {END, null}]. -/
def pegsNow1 : List PegInfo := [⟨CountType.NOW, some pktName⟩, pegEnd]

/-- Descriptor array [{MAX, "packets"}, {END, null}]. -/
def pegsMax1 : List PegInfo := [⟨CountType.MAX, some pktName⟩, pegEnd]

/-- End-to-end scenario 1 module: one SUM counter, live value 5, total 0. -/
def mPackets5 : Module :=
  { pegs := some pegsSum1, get_counts := some [5], counts := [0], num_counts := 1,
    table_level := 0, list := false, global_stats := false,
    trace_mask := none, trace := 0 }

/-- A NOW-kind module: live value 7, total 2. -/
def mNow7 : Module :=
  { pegs := some pegsNow1, get_counts := some [7], counts := [2], num_counts := 1,
    table_level := 0, list := false, global_stats := false,
    trace_mask := none, trace := 0 }

/-- A MAX-kind module: live value 5, total 3. -/
def mMax35 : Module :=
  { pegs := some pegsMax1, get_counts := some [5], counts := [3], num_counts := 1,
    table_level := 0, list := false, global_stats := false,
    trace_mask := none, trace := 0 }

/-- Witness for C1 at the scenario-1 module. -/
theorem C1_witness :
    (mPackets5.sum_stats false).countAt 0 = mPackets5.countAt 0 + mPackets5.liveAt 0 ∧
    (mPackets5.sum_stats false).liveAt 0 = 0 ∧
    ((mPackets5.sum_stats false).sum_stats false).countAt 0
      = (mPackets5.sum_stats false).countAt 0 :=
  C1_sum_kind mPackets5 pegsSum1 0 false false (by decide) (by decide) (by decide)

/-- Witness for C2 at a concrete NOW module. -/
theorem C2_witness :
    ((mNow7.sum_stats false).countAt 0 = mNow7.countAt 0 ∧
     (mNow7.sum_stats false).liveAt 0 = mNow7.liveAt 0) ∧
    ((mNow7.sum_stats true).countAt 0 = mNow7.countAt 0 + mNow7.liveAt 0 ∧
     (mNow7.sum_stats true).liveAt 0 = mNow7.liveAt 0) :=
  C2_now_kind mNow7 pegsNow1 0 (by decide) (by decide) (by decide)

/-- Witness for C3 at a concrete MAX module and a concrete call sequence. -/
theorem C3_witness :
    (mMax35.sum_stats false).countAt 0 = Nat.max (mMax35.countAt 0) (mMax35.liveAt 0) ∧
    mMax35.countAt 0 ≤
      (runStats mMax35
        [StatsOp.sum false, StatsOp.writeLive [1], StatsOp.sum true]).countAt 0 :=
  ⟨(C3_max_kind mMax35 pegsMax1 0 (by decide) (by decide) (by decide)).1 false,
   (C3_max_kind mMax35 pegsMax1 0 (by decide) (by decide) (by decide)).2
     [StatsOp.sum false, StatsOp.writeLive [1], StatsOp.sum true] (by decide)⟩


/-- isPrefixOf on char lists is the ∃-decomposition of list equality. -/
theorem isPrefixOf_iff (nd l : List Char) :
    nd.isPrefixOf l = true ↔ ∃ b, l = nd ++ b := by
  induction nd generalizing l with
  | nil => simp [List.isPrefixOf]
  | cons x xs ih =>
    cases l with
    | nil => simp [List.isPrefixOf]
    | cons c rest =>
      simp only [List.isPrefixOf, Bool.and_eq_true, beq_iff_eq, ih, List.cons_append,
        List.cons.injEq]
      constructor
      · rintro ⟨hx, b, hb⟩
        exact ⟨b, hx.symm, hb⟩
      · rintro ⟨b, hc, hb⟩
        exact ⟨hc.symm, b, hb⟩

/-- strstr semantics: hasSubstr is contiguous-substring containment. -/
theorem hasSubstr_iff (nd hay : List Char) :
    hasSubstr nd hay = true ↔ ∃ a b, hay = a ++ nd ++ b := by
  induction hay with
  | nil =>
    simp only [hasSubstr, List.isEmpty_iff]
    constructor
    · intro h
      exact ⟨[], [], by simp [h]⟩
    · rintro ⟨a, b, hab⟩
      have hab2 := hab.symm
      simp only [List.append_eq_nil] at hab2
      exact hab2.1.2
  | cons c rest ih =>
    simp only [hasSubstr, Bool.or_eq_true, isPrefixOf_iff, ih]
    constructor
    · rintro (⟨b, hb⟩ | ⟨a, b, hab⟩)
      · exact ⟨[], b, by simpa using hb⟩
      · exact ⟨c :: a, b, by simp [hab]⟩
    · rintro ⟨a, b, hab⟩
      cases a with
      | nil => exact Or.inl ⟨b, by simpa using hab⟩
      | cons a0 as =>
        simp only [List.cons_append, List.cons.injEq] at hab
        exact Or.inr ⟨as, b, hab.2⟩

/-- A scan over entries none of which alias-match returns false and leaves
the mask untouched. -/
theorem traceScan_miss (v : Value) (l : List TraceValue) (mask : Trace)
    (h : ∀ tv ∈ l, v.is tv.aliasName = false) :
    traceScan v l mask = (false, mask) := by
  induction l with
  | nil => rfl
  | cons tv rest ih =>
    have h0 := h tv (List.mem_cons_self tv rest)
    simp only [traceScan, h0, Bool.false_eq_true, if_false]
    exact ih (fun tv' h' => h tv' (List.mem_cons_of_mem tv h'))

/-- A scan whose first alias match is tv (everything before it missing)
returns true and ORs tv's mask bits in iff the 8-bit reading is nonzero. -/
theorem traceScan_hit (v : Value) (pre : List TraceValue) (tv : TraceValue)
    (post : List TraceValue) (mask : Trace)
    (hpre : ∀ tv' ∈ pre, v.is tv'.aliasName = false)
    (hhit : v.is tv.aliasName = true) :
    traceScan v (pre ++ tv :: post) mask
      = (true, if v.get_uint8 ≠ 0 then mask ||| tv.mask else mask) := by
  induction pre with
  | nil => simp [traceScan, hhit]
  | cons x xs ih =>
    have h0 := hpre x (List.mem_cons_self x xs)
    simp only [List.cons_append, traceScan, h0, Bool.false_eq_true, if_false]
    exact ih (fun tv' h' => hpre tv' (List.mem_cons_of_mem x h'))

/-- The scan never clears bits: the old mask is contained in the new one. -/
theorem traceScan_mask_mono (v : Value) (l : List TraceValue) (mask : Trace) :
    mask ||| (traceScan v l mask).2 = (traceScan v l mask).2 := by
  induction l with
  | nil => simp [traceScan]
  | cons tv rest ih =>
    cases h : v.is tv.aliasName with
    | false =>
      simp only [traceScan, h, Bool.false_eq_true, if_false]
      exact ih
    | true =>
      simp only [traceScan, h, if_true]
      by_cases hz : v.get_uint8 ≠ 0
      · rw [if_pos hz, ← Nat.lor_assoc]
        simp
      · rw [if_neg hz]
        simp


/-- C4: TraceMask::set scans front-to-back and acts on only the first entry
whose alias matches the value's option name: no match returns false with the
mask bit-for-bit unchanged; a match with a zero 8-bit reading returns true
with the mask unchanged; a match with a nonzero reading returns true and the
mask becomes previous OR entry.mask; and the old bits always survive. -/
theorem C4_trace_set (tm : TraceMask) (v : Value) (mask : Trace) :
    ((∀ tv ∈ tm.values, v.is tv.aliasName = false) →
        tm.set v mask = (false, mask)) ∧
    (∀ pre tv post, tm.values = pre ++ tv :: post →
        (∀ tv' ∈ pre, v.is tv'.aliasName = false) → v.is tv.aliasName = true →
        ((v.get_uint8 = 0 → tm.set v mask = (true, mask)) ∧
         (v.get_uint8 ≠ 0 → tm.set v mask = (true, mask ||| tv.mask)))) ∧
    mask ||| (tm.set v mask).2 = (tm.set v mask).2 := by
  refine ⟨?_, ?_, traceScan_mask_mono v tm.values mask⟩
  · intro h
    exact traceScan_miss v tm.values mask h
  · intro pre tv post hdec hpre hhit
    unfold TraceMask.set
    rw [hdec, traceScan_hit v pre tv post mask hpre hhit]
    constructor
    · intro hz
      simp [hz]
    · intro hz
      simp [hz]

/-- The character list "all". -/
def allName : List Char := "all".toList

/-- The default trace entry {"all", 1}. -/
def tvAll : TraceValue := ⟨allName, 1⟩

/-- The default TraceMask [{"all", 1}] (module.cc:42-48). -/
def tmAll : TraceMask := ⟨[tvAll]⟩

/-- A value naming "all" reading 1. -/
def vAll : Value := ⟨allName, 1⟩

/-- A value naming an option absent from tmAll. -/
def vOther : Value := ⟨"verbose".toList, 1⟩

/-- Witness for C4: end-to-end scenario 2 plus the no-match case. -/
theorem C4_witness :
    tmAll.set vAll 0 = (true, 0 ||| 1) ∧ tmAll.set vOther 0 = (false, 0) :=
  ⟨((C4_trace_set tmAll vAll 0).2.1 [] tvAll [] rfl (by simp) (by decide)).2 (by decide),
   (C4_trace_set tmAll vOther 0).1 (by decide)⟩

/-- C8: the default Module::set delegates to the TraceMask compiler against
the module's trace target iff the fqn contains the substring ".trace."
anywhere (simple containment); an fqn without ".trace." always yields
false with the module unchanged. -/
theorem C8_default_set (m : Module) (fqn : List Char) (v : Value) :
    ((¬ ∃ a b, fqn = a ++ dotTraceDot ++ b) → m.set fqn v = (false, m)) ∧
    (∀ tm, m.trace_mask = some tm → (∃ a b, fqn = a ++ dotTraceDot ++ b) →
      m.set fqn v
        = ((tm.set v m.trace).1, { m with trace := (tm.set v m.trace).2 })) := by
  constructor
  · intro h
    have hb : hasSubstr dotTraceDot fqn = false := by
      cases hcase : hasSubstr dotTraceDot fqn
      · rfl
      · exact absurd ((hasSubstr_iff _ _).mp hcase) h
    unfold Module.set
    simp [hb]
  · intro tm htm hex
    have hb : hasSubstr dotTraceDot fqn = true := (hasSubstr_iff _ _).mpr hex
    unfold Module.set
    simp [hb, htm]

/-- A module with the default trace mask bound. -/
def mTraceAll : Module :=
  { pegs := none, get_counts := none, counts := [], num_counts := -1,
    table_level := 0, list := false, global_stats := false,
    trace_mask := some tmAll, trace := 0 }

/-- fqn "mod.trace.all" (contains ".trace."). -/
def fqnTrace : List Char := "mod.trace.all".toList

/-- fqn "mod.opt" (no ".trace."). -/
def fqnPlain : List Char := "mod.opt".toList

/-- Witness for C8 at concrete fqns with the default trace mask bound. -/
theorem C8_witness :
    mTraceAll.set fqnTrace vAll
      = ((tmAll.set vAll 0).1, { mTraceAll with trace := (tmAll.set vAll 0).2 }) ∧
    mTraceAll.set fqnPlain vAll = (false, mTraceAll) :=
  ⟨(C8_default_set mTraceAll fqnTrace vAll).2 tmAll rfl
      ⟨"mod".toList, "all".toList, by decide⟩,
   (C8_default_set mTraceAll fqnPlain vAll).1
      (fun hex => absurd ((hasSubstr_iff _ _).mpr hex) (by decide))⟩

/-- C10: with no TraceMask bound, every trace operation is effect-free:
Module::set returns false (state unchanged) for every fqn containing
".trace.", and enable_trace leaves the module (its trace target included)
unchanged. -/
theorem C10_no_mask (m : Module) (fqn : List Char) (v : Value)
    (h : m.trace_mask = none) :
    ((∃ a b, fqn = a ++ dotTraceDot ++ b) → m.set fqn v = (false, m)) ∧
    m.enable_trace = m := by
  constructor
  · intro hex
    have hb : hasSubstr dotTraceDot fqn = true := (hasSubstr_iff _ _).mpr hex
    unfold Module.set
    simp [hb, h]
  · unfold Module.enable_trace
    rw [h]

/-- Witness for C10 at a maskless module and a ".trace." fqn. -/
theorem C10_witness :
    mPackets5.set fqnTrace vAll = (false, mPackets5) ∧
    mPackets5.enable_trace = mPackets5 :=
  ⟨(C10_no_mask mPackets5 fqnTrace vAll rfl).1 ⟨"mod".toList, "all".toList, by decide⟩,
   (C10_no_mask mPackets5 fqnTrace vAll rfl).2⟩

/-- C5: verified_set on a list module below nesting depth 2 rejects without
consulting the value-set hook (any hook), regardless of fqn or value;
otherwise it returns exactly the hook's result. -/
theorem C5_verified_set (hook : Module → List Char → Value → Bool × Module)
    (m : Module) (fqn : List Char) (v : Value) :
    (m.list = true → m.table_level < 2 →
        Module.verified_set hook m fqn v = (false, m)) ∧
    (m.list = false → Module.verified_set hook m fqn v = hook m fqn v) ∧
    (2 ≤ m.table_level → Module.verified_set hook m fqn v = hook m fqn v) := by
  refine ⟨?_, ?_, ?_⟩
  · intro hl hd
    unfold Module.verified_set
    simp [hl, hd]
  · intro hl
    unfold Module.verified_set
    simp [hl]
  · intro hd
    have hlt : ¬ m.table_level < 2 := not_lt.mpr hd
    unfold Module.verified_set
    simp [hlt]

/-- A hook that accepts everything (stands in for a module-specific set). -/
def hookAccept : Module → List Char → Value → Bool × Module :=
  fun m _ _ => (true, m)

/-- A list module currently at depth 1. -/
def mList1 : Module :=
  { pegs := none, get_counts := none, counts := [], num_counts := -1,
    table_level := 1, list := true, global_stats := false,
    trace_mask := none, trace := 0 }

/-- The same list module after one more enter_table (depth 2). -/
def mList2 : Module :=
  { mList1 with table_level := 2 }

/-- Witness for C5: end-to-end scenario 3. -/
theorem C5_witness :
    Module.verified_set hookAccept mList1 fqnPlain vAll = (false, mList1) ∧
    Module.verified_set hookAccept mList2 fqnPlain vAll
      = hookAccept mList2 fqnPlain vAll :=
  ⟨(C5_verified_set hookAccept mList1 fqnPlain vAll).1 rfl (by decide),
   (C5_verified_set hookAccept mList2 fqnPlain vAll).2.2 (by decide)⟩


/-- runWalk only shifts the depth, by the sequence's net delta. -/
theorem runWalk_table_level (l : List WalkOp) :
    ∀ m : Module, (runWalk m l).table_level = m.table_level + walkDelta l := by
  induction l with
  | nil => intro m; simp [runWalk, walkDelta]
  | cons op rest ih =>
    intro m
    cases op with
    | enter_table =>
      simp only [runWalk, applyWalk, walkDelta]
      rw [ih]
      unfold Module.verified_begin
      simp
      ring
    | exit_table =>
      simp only [runWalk, applyWalk, walkDelta]
      rw [ih]
      unfold Module.verified_end
      simp
      ring

/-- A sequence that closes exactly n pending tables has net delta -n. -/
theorem balancedFrom_delta (l : List WalkOp) :
    ∀ n : Nat, balancedFrom l n = true → walkDelta l = -(n : Int) := by
  induction l with
  | nil =>
    intro n h
    simp only [balancedFrom, beq_iff_eq] at h
    simp [walkDelta, h]
  | cons op rest ih =>
    intro n h
    cases op with
    | enter_table =>
      simp only [balancedFrom] at h
      have := ih (n + 1) h
      simp only [walkDelta, this]
      push_cast
      ring
    | exit_table =>
      cases n with
      | zero => simp [balancedFrom] at h
      | succ k =>
        simp only [balancedFrom] at h
        have := ih k h
        simp only [walkDelta, this]
        push_cast
        ring

/-- Along a balanced-from-n sequence the running depth never dips below
-n: every take-k net delta is at least -n. -/
theorem balancedFrom_take (l : List WalkOp) :
    ∀ (n : Nat) (k : Nat), balancedFrom l n = true →
      0 ≤ (n : Int) + walkDelta (l.take k) := by
  induction l with
  | nil =>
    intro n k _
    simp [walkDelta]
  | cons op rest ih =>
    intro n k h
    cases k with
    | zero => simp [walkDelta]
    | succ k =>
      cases op with
      | enter_table =>
        simp only [balancedFrom] at h
        have := ih (n + 1) k h
        simp only [List.take, walkDelta]
        push_cast at this ⊢
        omega
      | exit_table =>
        cases n with
        | zero => simp [balancedFrom] at h
        | succ j =>
          simp only [balancedFrom] at h
          have := ih j k h
          simp only [List.take, walkDelta]
          push_cast at this ⊢
          omega

/-- C6: verified_begin increments the nesting depth by exactly 1 and
verified_end decrements it by exactly 1; hence a balanced begin/end
sequence restores the depth, and starting from depth 0 the depth stays
non-negative at every point of the sequence. -/
theorem C6_nesting (m : Module) (l : List WalkOp) (hb : balancedWalk l = true) :
    m.verified_begin.table_level = m.table_level + 1 ∧
    m.verified_end.table_level = m.table_level - 1 ∧
    (runWalk m l).table_level = m.table_level ∧
    (m.table_level = 0 → ∀ k, 0 ≤ (runWalk m (l.take k)).table_level) := by
  refine ⟨rfl, rfl, ?_, ?_⟩
  · rw [runWalk_table_level l m, balancedFrom_delta l 0 hb]
    simp
  · intro h0 k
    rw [runWalk_table_level (l.take k) m, h0]
    have := balancedFrom_take l 0 k hb
    simpa using this

/-- A concrete balanced walk sequence: two nested tables opened and
closed. -/
def wSeq : List WalkOp :=
  [WalkOp.enter_table, WalkOp.enter_table, WalkOp.exit_table, WalkOp.exit_table]

/-- Witness for C6 at a concrete module and balanced sequence. -/
theorem C6_witness :
    mPackets5.verified_begin.table_level = mPackets5.table_level + 1 ∧
    mPackets5.verified_end.table_level = mPackets5.table_level - 1 ∧
    (runWalk mPackets5 wSeq).table_level = mPackets5.table_level ∧
    0 ≤ (runWalk mPackets5 (wSeq.take 3)).table_level :=
  ⟨(C6_nesting mPackets5 wSeq (by decide)).1,
   (C6_nesting mPackets5 wSeq (by decide)).2.1,
   (C6_nesting mPackets5 wSeq (by decide)).2.2.1,
   (C6_nesting mPackets5 wSeq (by decide)).2.2.2 rfl 3⟩


/-- reset_stats resolves num_counts to the descriptor count whenever the
sizing guard (num_counts <= 0) holds, and leaves it alone otherwise. -/
theorem reset_stats_num_counts (m : Module) :
    (m.reset_stats).num_counts
      = if m.num_counts ≤ 0 then (numPegs m : Int) else m.num_counts := by
  by_cases h : m.num_counts ≤ 0
  · simp only [Module.reset_stats, numPegs, if_pos h]
    cases hp : m.pegs <;> simp [hp]
  · simp only [Module.reset_stats, if_neg h]

/-- reset_stats never changes the static descriptors. -/
theorem reset_stats_pegs (m : Module) : (m.reset_stats).pegs = m.pegs := by
  unfold Module.reset_stats
  by_cases h : m.num_counts ≤ 0
  · simp only [if_pos h]
    cases hp : m.pegs <;> simp [hp]
  · simp only [if_neg h]

/-- sum_stats changes num_counts only through its implicit reset. -/
theorem sum_stats_num_counts (m : Module) (acc : Bool) :
    (m.sum_stats acc).num_counts
      = (if m.num_counts < 0 then m.reset_stats else m).num_counts := by
  simp only [Module.sum_stats]
  generalize (if m.num_counts < 0 then m.reset_stats else m) = m1
  cases hg : m1.get_counts
  · rfl
  · cases hp : m1.pegs
    · rfl
    · by_cases hgs : m1.global_stats = true <;> simp [hgs]

/-- sum_stats never changes the static descriptors. -/
theorem sum_stats_pegs (m : Module) (acc : Bool) :
    (m.sum_stats acc).pegs = m.pegs := by
  simp only [Module.sum_stats]
  have hpr : (if m.num_counts < 0 then m.reset_stats else m).pegs = m.pegs := by
    by_cases h : m.num_counts < 0
    · simp only [if_pos h, reset_stats_pegs]
    · simp only [if_neg h]
  generalize hm1 : (if m.num_counts < 0 then m.reset_stats else m) = m1 at hpr
  cases hg : m1.get_counts
  · exact hpr
  · cases hp : m1.pegs
    · exact hpr
    · by_cases hgs : m1.global_stats = true <;> simp [hgs, ← hp, hpr]

/-- numPegs only depends on the descriptors. -/
theorem numPegs_congr (m m0 : Module) (h : m.pegs = m0.pegs) :
    numPegs m = numPegs m0 := by
  unfold numPegs
  rw [h]

/-- One stats operation preserves "descriptors as in m0 and num_counts
resolved to m0's descriptor count". -/
theorem applyOp_inv (m0 m : Module) (op : StatsOp)
    (hpg : m.pegs = m0.pegs) (hnc : m.num_counts = (numPegs m0 : Int)) :
    (applyOp m op).pegs = m0.pegs ∧ (applyOp m op).num_counts = (numPegs m0 : Int) := by
  cases op with
  | rst =>
    refine ⟨?_, ?_⟩
    · show (m.reset_stats).pegs = m0.pegs
      rw [reset_stats_pegs, hpg]
    · show (m.reset_stats).num_counts = (numPegs m0 : Int)
      rw [reset_stats_num_counts]
      by_cases h : m.num_counts ≤ 0
      · rw [if_pos h, numPegs_congr m m0 hpg]
      · rw [if_neg h, hnc]
  | sum acc =>
    have hlt : ¬ m.num_counts < 0 := by
      rw [hnc]
      exact not_lt.mpr (Int.natCast_nonneg _)
    refine ⟨?_, ?_⟩
    · show (m.sum_stats acc).pegs = m0.pegs
      rw [sum_stats_pegs, hpg]
    · show (m.sum_stats acc).num_counts = (numPegs m0 : Int)
      rw [sum_stats_num_counts, if_neg hlt, hnc]
  | writeLive ls =>
    cases hg : m.get_counts <;> simp [applyOp, hg, hpg, hnc]

/-- Running any stats sequence preserves descriptors and the resolved
count. -/
theorem runStats_inv (m0 : Module) :
    ∀ (ops : List StatsOp) (m : Module), m.pegs = m0.pegs →
      m.num_counts = (numPegs m0 : Int) →
      (runStats m ops).pegs = m0.pegs ∧
      (runStats m ops).num_counts = (numPegs m0 : Int) := by
  intro ops
  induction ops with
  | nil => intro m hpg hnc; exact ⟨hpg, hnc⟩
  | cons op rest ih =>
    intro m hpg hnc
    have h1 := applyOp_inv m0 m op hpg hnc
    simpa only [runStats] using ih (applyOp m op) h1.1 h1.2

/-- Module state as produced by Module::init (module.cc:86-94): list :=
false and num_counts := -1; the remaining mutable fields take module.h's
in-class defaults (empty totals vector, depth 0, no trace binding), and the
statically bound descriptor/live arrays, global predicate, trace mask and
trace target are construction parameters. -/
def initModule (p : Option (List PegInfo)) (gc : Option (List PegCount))
    (g : Bool) (tmk : Option TraceMask) (tr : Trace) : Module :=
  { pegs := p, get_counts := gc, counts := [], num_counts := -1,
    table_level := 0, list := false, global_stats := g,
    trace_mask := tmk, trace := tr }

/-- A freshly initialized module whose descriptor array is just the END
sentinel, so its count resolves to zero. -/
def mEmptyPegs : Module :=
  initModule (some [pegEnd]) none false none 0

/-- C7 counterexample: a module whose PegInfo sequence is just the sentinel
resolves num_counts to 0 on the first reset_stats, and an immediately
following reset_stats still satisfies the sizing guard (num_counts <= 0,
module.cc:190), i.e. it walks the descriptors and resizes again — the
claim's "every subsequent reset_stats call does not recompute" is false. -/
theorem C7_counterexample :
    mEmptyPegs.num_counts = -1 ∧
    (mEmptyPegs.reset_stats).num_counts = 0 ∧
    takesSizingBranch mEmptyPegs.reset_stats = true := by decide

/-- C7 (amended): num_counts starts at the sentinel -1; the first
reset_stats (or sum_stats, via its implicit reset) resolves it to the
descriptor count; every subsequent reset_stats or sum_stats call leaves its
value unchanged; and when the resolved count is positive (the only case in
which the claim's "never recomputes" holds) no subsequent call ever takes
the sizing branch again. -/
theorem C7_lazy_count (m : Module) (h : m.num_counts = -1)
    (p : Option (List PegInfo)) (gc : Option (List PegCount))
    (g : Bool) (tmk : Option TraceMask) (tr : Trace) :
    (initModule p gc g tmk tr).num_counts = -1 ∧
    (m.reset_stats).num_counts = (numPegs m : Int) ∧
    (∀ acc, (m.sum_stats acc).num_counts = (numPegs m : Int)) ∧
    (∀ ops, (runStats m.reset_stats ops).num_counts = (numPegs m : Int)) ∧
    (0 < numPegs m →
      ∀ ops, takesSizingBranch (runStats m.reset_stats ops) = false) := by
  have hle : m.num_counts ≤ 0 := by rw [h]; decide
  have hlt : m.num_counts < 0 := by rw [h]; decide
  have hr : (m.reset_stats).num_counts = (numPegs m : Int) := by
    rw [reset_stats_num_counts, if_pos hle]
  have hrun : ∀ ops, (runStats m.reset_stats ops).num_counts = (numPegs m : Int) :=
    fun ops =>
      (runStats_inv m ops m.reset_stats (reset_stats_pegs m) hr).2
  refine ⟨rfl, hr, ?_, hrun, ?_⟩
  · intro acc
    rw [sum_stats_num_counts, if_pos hlt, hr]
  · intro hpos ops
    have hv := hrun ops
    unfold takesSizingBranch
    rw [hv]
    simp only [decide_eq_false_iff_not, not_le]
    exact_mod_cast hpos

/-- A freshly initialized scenario-1 module (one SUM counter). -/
def mInit : Module :=
  initModule (some pegsSum1) (some [5]) false none 0

/-- Witness for the amended C7 at a concrete module with a positive count. -/
theorem C7_witness :
    mInit.num_counts = -1 ∧
    (mInit.reset_stats).num_counts = (numPegs mInit : Int) ∧
    (runStats mInit.reset_stats [StatsOp.sum true, StatsOp.rst]).num_counts
      = (numPegs mInit : Int) ∧
    takesSizingBranch (runStats mInit.reset_stats [StatsOp.sum true, StatsOp.rst])
      = false :=
  ⟨rfl,
   (C7_lazy_count mInit rfl none none false none 0).2.1,
   (C7_lazy_count mInit rfl none none false none 0).2.2.2.1
     [StatsOp.sum true, StatsOp.rst],
   (C7_lazy_count mInit rfl none none false none 0).2.2.2.2 (by decide)
     [StatsOp.sum true, StatsOp.rst]⟩


/-- findPeg locates the least pre-sentinel index whose name matches. -/
theorem findPeg_mem (nm : List Char) (ps : List PegInfo) (h : nm ∈ pegNames ps) :
    ∃ i, findPeg nm ps = some i ∧ (pegNames ps).get? i = some nm ∧
      ∀ j, j < i → (pegNames ps).get? j ≠ some nm := by
  induction ps with
  | nil => simp [pegNames] at h
  | cons q rest ih =>
    cases hn : q.name with
    | none =>
      rw [pegNames, hn] at h
      simp at h
    | some s =>
      rw [pegNames, hn] at h
      by_cases he : nm = s
      · refine ⟨0, ?_, ?_, ?_⟩
        · simp [findPeg, hn, he]
        · simp [pegNames, hn, he]
        · intro j hj
          exact absurd hj (Nat.not_lt_zero j)
      · have h2 : nm ∈ pegNames rest := by
          rcases List.mem_cons.mp h with h0 | h0
          · exact absurd h0 he
          · exact h0
        obtain ⟨i, hf, hg, hmin⟩ := ih h2
        refine ⟨i + 1, ?_, ?_, ?_⟩
        · simp only [findPeg, hn]
          rw [if_neg (by simpa using he), hf]
          rfl
        · rw [pegNames, hn]
          simpa using hg
        · intro j hj
          cases j with
          | zero =>
            rw [pegNames, hn]
            simpa using fun hc => he hc.symm
          | succ k =>
            rw [pegNames, hn]
            simpa using hmin k (by omega)

/-- A name absent from the pre-sentinel names drives the scan into the
assertion path. -/
theorem findPeg_none (nm : List Char) (ps : List PegInfo)
    (h : nm ∉ pegNames ps) : findPeg nm ps = none := by
  induction ps with
  | nil => rfl
  | cons q rest ih =>
    cases hn : q.name with
    | none => simp [findPeg, hn]
    | some s =>
      rw [pegNames, hn] at h
      simp only [findPeg, hn]
      have he : ¬ nm = s := fun hc => h (by simp [hc])
      rw [if_neg (by simpa using he), ih (fun hc => h (List.mem_cons_of_mem s hc))]
      rfl

/-- C9: get_global_count on a name present among the module's pre-sentinel
PegInfo names returns the recorded counter at the first matching index (the
assertion branch is unreachable there); on an absent name the scan falls
through to the assert(false) programmer-error path, embedded as none. -/
theorem C9_get_global_count (m : Module) (infos : List PegInfo) (nm : List Char)
    (hp : m.pegs = some infos) :
    (nm ∈ pegNames infos →
      ∃ i, findPeg nm infos = some i ∧ (pegNames infos).get? i = some nm ∧
        (∀ j, j < i → (pegNames infos).get? j ≠ some nm) ∧
        m.get_global_count nm = some (m.counts.getD i 0)) ∧
    (nm ∉ pegNames infos → m.get_global_count nm = none) := by
  constructor
  · intro h
    obtain ⟨i, hf, hg, hmin⟩ := findPeg_mem nm infos h
    refine ⟨i, hf, hg, hmin, ?_⟩
    simp only [Module.get_global_count, hp, hf]
    rfl
  · intro h
    simp only [Module.get_global_count, hp, findPeg_none nm infos h]
    rfl

/-- Witness for C9: end-to-end scenario 4 — after aggregation on the
scenario-1 module, get_global_count("packets") returns 5. -/
theorem C9_witness :
    pktName ∈ pegNames pegsSum1 ∧
    (mPackets5.sum_stats false).get_global_count pktName = some 5 := by
  constructor
  · decide
  · obtain ⟨i, hf, hg2, hmin, hv⟩ :=
      (C9_get_global_count (mPackets5.sum_stats false) pegsSum1 pktName
        (by decide)).1 (by decide)
    have h0 : findPeg pktName pegsSum1 = some 0 := by decide
    rw [h0] at hf
    injection hf with hi
    rw [hv, ← hi]
    decide

end Snort
